import Mathlib

set_option allowUnsafeReducibility true
attribute [semireducible] Rat.mul Rat.inv Rat.add Rat.sub

/-!
Shallow embedding of the QuickDup duplicate-code detector
(`cmd/quickdup`: parser.go, detector.go, filter.go, similarity.go and the
strategy files).  Go integers are modelled as `Nat`/`Int` (with explicit
`% 2^64` where the 64-bit FNV hash overflows), Go `float64` similarity
values are modelled as exact rationals `ℚ`, Go maps are modelled as
association lists in insertion order, and the parallel worker pools are
modelled by their sequential semantics (per-worker maps merged in order).
-/

namespace QuickDup

/-! ## parser.go: separators, first word, indent, skip predicates -/

/-- The separator set from parser.go: `" \t:.;{}()[]#!<>=,\n\r"`. -/
def separators : List Char :=
  [' ', '\t', ':', '.', ';', '{', '}', '(', ')', '[', ']', '#', '!', '<', '>', '=', ',', '\n', '\r']

/-- Go `strings.ContainsRune(separators, r)`. -/
def isSeparator (c : Char) : Bool := separators.contains c

/-- Index of the first character that is not a space or tab; Go leaves
`start = 0` when every character is a space or tab. -/
def firstNonWsIdx (cs : List Char) : Nat :=
  match cs.findIdx? (fun c => c ≠ ' ' ∧ c ≠ '\t') with
  | some i => i
  | none => 0

/-- Index of the first separator character, or the length when none occurs
(the `end` variable of `extractFirstWord`). -/
def firstSepIdx (cs : List Char) : Nat :=
  match cs.findIdx? (fun c => isSeparator c) with
  | some i => i
  | none => cs.length

/-- parser.go `extractFirstWord`: skip leading spaces/tabs, read up to the
first separator; if the first character is itself a separator, return that
single character; empty input yields the empty string. -/
def extractFirstWord (line : String) : String :=
  let cs := line.data
  let trimmed := cs.drop (firstNonWsIdx cs)
  let e := firstSepIdx trimmed
  if e = 0 then
    match trimmed with
    | [] => ""
    | c :: _ => String.mk [c]
  else
    String.mk (trimmed.take e)

/-- parser.go `calculateIndent`: leading spaces count 1, tabs count 4. -/
def calculateIndent (line : String) : Nat :=
  let rec go : List Char → Nat
    | [] => 0
    | c :: cs => if c = ' ' then 1 + go cs else if c = '\t' then 4 + go cs else 0
  go line.data

/-- parser.go `isWhitespaceOnly`. -/
def isWhitespaceOnly (line : String) : Bool :=
  line.data.all (fun c => c = ' ' ∨ c = '\t')

/-- parser.go `isCommentOnly` (the comment prefix is the global
`commentPrefix`, passed here as a parameter). -/
def isCommentOnly (commentPfx : String) (line : String) : Bool :=
  if commentPfx = "" then false
  else commentPfx.data.isPrefixOf (line.data.drop (line.data.takeWhile (fun c => c = ' ' ∨ c = '\t')).length)

/-- parser.go `skipFirstWords`: first-word deny list per file extension. -/
def skipFirstWords : List (String × List String) :=
  [ (".cs", ["using", "#"]),
    (".go", ["import", "package"]),
    (".java", ["import", "package"]),
    (".ts", ["import", "export"]),
    (".tsx", ["import", "export"]),
    (".js", ["import", "export"]),
    (".jsx", ["import", "export"]),
    (".py", ["import", "from"]),
    (".rs", ["use", "mod"]),
    (".kt", ["import", "package"]),
    (".scala", ["import", "package"]) ]

/-- Deny list for an extension; a missing key behaves as the empty list
(Go map lookup yielding `nil`). -/
def skipWordsFor (ext : String) : List String :=
  match skipFirstWords.find? (fun p => p.1 = ext) with
  | some p => p.2
  | none => []

/-- parser.go `shouldSkipByFirstWord` (the global `currentFileExt` is
passed as a parameter). -/
def shouldSkipByFirstWord (ext : String) (line : String) : Bool :=
  (skipWordsFor ext).contains (extractFirstWord line)

/-! ## FNV-1a 64-bit hashing (hash/fnv as used by every strategy Hash) -/

/-- FNV-1a 64-bit offset basis. -/
def fnvOffset : Nat := 14695981039346656037

/-- FNV-1a 64-bit prime. -/
def fnvPrime : Nat := 1099511628211

/-- One FNV-1a step on a byte: xor then multiply, modulo `2^64`. -/
def fnvStep (h b : Nat) : Nat := ((h ^^^ b) * fnvPrime) % (2 ^ 64)

/-- Feed a byte list into a running FNV-1a state (Go `h.Write(bytes)`). -/
def fnvWrite (h : Nat) (bs : List Nat) : Nat := bs.foldl fnvStep h

/-- FNV-1a 64 of a whole byte list from the offset basis. -/
def fnv1a (bs : List Nat) : Nat := fnvWrite fnvOffset bs

/-- Bytes of a string (ASCII code points; all repository inputs are ASCII). -/
def byteSeq (s : String) : List Nat := s.data.map Char.toNat

/-! ## CStyleCommentStripper.Preparse

The Go code scans the byte array with an index, blanking `/* ... */`
regions (delimiters included) while preserving newlines.  The second
constructor argument below plays the role of being inside a comment. -/

/-- `stripScan false cs` models the outer scan, `stripScan true cs` the scan
for the closing delimiter. -/
def stripScan : Bool → List Char → List Char
  | false, '/' :: '*' :: rest => ' ' :: ' ' :: stripScan true rest
  | false, c :: rest => c :: stripScan false rest
  | false, [] => []
  | true, '*' :: '/' :: rest => ' ' :: ' ' :: stripScan false rest
  | true, '\n' :: rest => '\n' :: stripScan true rest
  | true, _ :: rest => ' ' :: stripScan true rest
  | true, [] => []

/-- `CStyleCommentStripper.Preparse` (part_003): replace every `/* ... */`
region with spaces, preserving newlines; an unterminated comment is blanked
to the end of the content. -/
def cStylePreparse (content : String) : String :=
  String.mk (stripScan false content.data)

/-! ## Entry types (entry.go and the strategy files)

Each strategy has its own entry struct in Go; the pre-computed `hashBytes`
field is modelled by a function of the stored fields (the Go constructor
always computes it from the same fields). -/

/-- strategy_normalizedindent.go `NormalizedIndentEntry` (IndentDelta is
normalized to -1, 0 or +1). -/
structure NormalizedIndentEntry where
  lineNumber : Nat
  indentDelta : Int
  word : String
  sourceLine : String
deriving DecidableEq, Repr

/-- Hash contribution bytes of a `NormalizedIndentEntry`:
`fmt.Sprintf("%d|%s\n", indentDelta, word)`. -/
def NormalizedIndentEntry.hashBytes (e : NormalizedIndentEntry) : List Nat :=
  byteSeq (Int.repr e.indentDelta ++ "|" ++ e.word ++ "\n")

/-- part_003 `WordIndentEntry` (raw indent delta). -/
structure WordIndentEntry where
  lineNumber : Nat
  indentDelta : Int
  word : String
  sourceLine : String
deriving DecidableEq, Repr

/-- Hash contribution bytes of a `WordIndentEntry`. -/
def WordIndentEntry.hashBytes (e : WordIndentEntry) : List Nat :=
  byteSeq (Int.repr e.indentDelta ++ "|" ++ e.word ++ "\n")

/-- strategy_wordonly.go `WordOnlyEntry`. -/
structure WordOnlyEntry where
  lineNumber : Nat
  word : String
  sourceLine : String
deriving DecidableEq, Repr

/-- Hash contribution bytes of a `WordOnlyEntry`: `word + "\n"`. -/
def WordOnlyEntry.hashBytes (e : WordOnlyEntry) : List Nat :=
  byteSeq (e.word ++ "\n")

/-- strategy_inlineable.go `InlineableEntry`. -/
structure InlineableEntry where
  lineNumber : Nat
  word : String
  sourceLine : String
deriving DecidableEq, Repr

/-- Hash contribution bytes of an `InlineableEntry`: `word + "\n"`. -/
def InlineableEntry.hashBytes (e : InlineableEntry) : List Nat :=
  byteSeq (e.word ++ "\n")

/-! ## ParseLine per strategy

Each Go `ParseLine(lineNum, line, prevEntry)` returns `(entry, skip)`;
we model it as `Option entry` (`none` = skip).  The globals
`commentPrefix` and `currentFileExt` are parameters. -/

/-- `NormalizedIndentStrategy.ParseLine`. -/
def niParseLine (ext commentPfx : String) (lineNum : Nat) (line : String)
    (prevEntry : Option NormalizedIndentEntry) : Option NormalizedIndentEntry :=
  if isWhitespaceOnly line ∨ isCommentOnly commentPfx line ∨ shouldSkipByFirstWord ext line then
    none
  else
    let prevIndent : Int := match prevEntry with
      | some prev => calculateIndent prev.sourceLine
      | none => 0
    let indent : Int := calculateIndent line
    let word := extractFirstWord line
    let rawDelta := indent - prevIndent
    let indentDelta : Int := if rawDelta > 0 then 1 else if rawDelta < 0 then -1 else 0
    some ⟨lineNum, indentDelta, word, line⟩

/-- `WordIndentStrategy.ParseLine` (part_003): note that it checks only
whitespace and comment lines, not the first-word deny list. -/
def wiParseLine (commentPfx : String) (lineNum : Nat) (line : String)
    (prevEntry : Option WordIndentEntry) : Option WordIndentEntry :=
  if isWhitespaceOnly line ∨ isCommentOnly commentPfx line then
    none
  else
    let prevIndent : Int := match prevEntry with
      | some prev => calculateIndent prev.sourceLine
      | none => 0
    let indent : Int := calculateIndent line
    let word := extractFirstWord line
    some ⟨lineNum, indent - prevIndent, word, line⟩

/-- `WordOnlyStrategy.ParseLine`. -/
def woParseLine (ext commentPfx : String) (lineNum : Nat) (line : String)
    (_prevEntry : Option WordOnlyEntry) : Option WordOnlyEntry :=
  if isWhitespaceOnly line ∨ isCommentOnly commentPfx line ∨ shouldSkipByFirstWord ext line then
    none
  else
    some ⟨lineNum, extractFirstWord line, line⟩

/-- `InlineableStrategy.ParseLine`. -/
def inlParseLine (ext commentPfx : String) (lineNum : Nat) (line : String)
    (_prevEntry : Option InlineableEntry) : Option InlineableEntry :=
  if isWhitespaceOnly line ∨ isCommentOnly commentPfx line ∨ shouldSkipByFirstWord ext line then
    none
  else
    some ⟨lineNum, extractFirstWord line, line⟩

/-! ## parser.go parseFile

Read bytes, preparse, split on newline, iterate with 1-based line numbers
threading the previously emitted entry. -/

/-- The line loop of `parseFile`, generic over the strategy ParseLine. -/
def parseLines {E : Type} (pl : Nat → String → Option E → Option E) :
    Nat → Option E → List String → List E
  | _, _, [] => []
  | lineNumber, prevEntry, line :: rest =>
    match pl lineNumber line prevEntry with
    | none => parseLines pl (lineNumber + 1) prevEntry rest
    | some e => e :: parseLines pl (lineNumber + 1) (some e) rest

/-- Split on newline characters, Go `strings.Split(content, "\n")`:
`n` separators yield `n+1` pieces. -/
def splitNl : List Char → List (List Char)
  | [] => [[]]
  | '\n' :: rest => [] :: splitNl rest
  | c :: rest =>
    match splitNl rest with
    | [] => [[c]]
    | l :: ls => (c :: l) :: ls

/-- `parseFile` on in-memory content: preparse (all four strategies use the
c-style stripper), split into lines on newline, run the line loop. -/
def parseContent {E : Type} (pl : Nat → String → Option E → Option E)
    (content : String) : List E :=
  parseLines pl 1 none ((splitNl (cStylePreparse content).data).map String.mk)

/-! ## Strategy hashes, scores and block lists

Go `float64` similarity is modelled as `ℚ`; the Go conversion `int(f)`
truncates toward zero. -/

/-- Go `int(f)` on a rational: truncation toward zero. -/
def goTrunc (q : ℚ) : Int := if q < 0 then -((-q).floor) else q.floor

/-- Every strategy `Hash`: fold each entry's hash-contribution bytes
through one running FNV-1a 64 state. -/
def hashEntries {E : Type} (hb : E → List Nat) (entries : List E) : Nat :=
  entries.foldl (fun h e => fnvWrite h (hb e)) fnvOffset

/-- `NormalizedIndentStrategy.Hash`. -/
def niHash (entries : List NormalizedIndentEntry) : Nat :=
  hashEntries NormalizedIndentEntry.hashBytes entries

/-- `WordIndentStrategy.Hash`. -/
def wiHash (entries : List WordIndentEntry) : Nat :=
  hashEntries WordIndentEntry.hashBytes entries

/-- `WordOnlyStrategy.Hash`. -/
def woHash (entries : List WordOnlyEntry) : Nat :=
  hashEntries WordOnlyEntry.hashBytes entries

/-- `InlineableStrategy.Hash`. -/
def inlHash (entries : List InlineableEntry) : Nat :=
  hashEntries InlineableEntry.hashBytes entries

/-- `NormalizedIndentStrategy.Score`: unique first words, minus the shape
imbalance computed from the running indent-delta sum, times the cubed
adjusted similarity, truncated, plus `len(entries)/20`. -/
def niScore (entries : List NormalizedIndentEntry) (similarity : ℚ) : Int :=
  let seen := (entries.map (·.word)).dedup
  let rm := entries.foldl
    (fun (p : Int × Int) e =>
      let r := p.1 + e.indentDelta
      (r, if r < p.2 then r else p.2)) (0, 0)
  let running := rm.1
  let minRunning := rm.2
  let unopenedCloses := -minRunning
  let unclosedOpens := if running < 0 then 0 else running
  let imbalance := unopenedCloses + unclosedOpens
  let effectiveWords : Int :=
    if (seen.length : Int) - imbalance < 0 then 0 else (seen.length : Int) - imbalance
  let adjustedSim : ℚ := if similarity * 2 - 1 < 0 then 0 else similarity * 2 - 1
  let simFactor := adjustedSim * adjustedSim * adjustedSim
  goTrunc ((effectiveWords : ℚ) * simFactor) + (entries.length / 20 : Nat)

/-- `WordIndentStrategy.Score` / `WordOnlyStrategy.Score`: unique first
words times the adjusted similarity, truncated. -/
def uniqueWordsScore (words : List String) (similarity : ℚ) : Int :=
  let uniqueWords := words.dedup.length
  let adjustedSim : ℚ := if similarity * 2 - 1 < 0 then 0 else similarity * 2 - 1
  goTrunc ((uniqueWords : ℚ) * adjustedSim)

/-- `WordOnlyStrategy.Score`. -/
def woScore (entries : List WordOnlyEntry) (similarity : ℚ) : Int :=
  uniqueWordsScore (entries.map (·.word)) similarity

/-- `WordIndentStrategy.Score`. -/
def wiScore (entries : List WordIndentEntry) (similarity : ℚ) : Int :=
  uniqueWordsScore (entries.map (·.word)) similarity

/-- strategy_inlineable.go `accessModifiers`. -/
def accessModifiers : List String := ["public", "private", "internal", "protected"]

/-- `InlineableStrategy.Score`: zero unless the window has 3 to 5 lines and
its word sequence is an access-modifier one-liner shape; then a base of 50
plus a similarity bonus. -/
def inlScore (entries : List InlineableEntry) (similarity : ℚ) : Int :=
  if entries.length < 3 ∨ entries.length > 5 then 0
  else
    let words := entries.map (·.word)
    let w : Nat → String := fun i => words.getD i ""
    let matchedA := 4 ≤ words.length ∧ accessModifiers.contains (w 0) ∧
      w 1 = "\x7b" ∧ w 2 = "return" ∧ w 3 = "\x7d"
    let matchedB := accessModifiers.contains (w 0) ∧ w 1 = "return" ∧ w 2 = "\x7d"
    if matchedA ∨ matchedB then
      let adjustedSim : ℚ := if similarity * 2 - 1 < 0 then 0 else similarity * 2 - 1
      50 + goTrunc (adjustedSim * 50)
    else 0

/-- `NormalizedIndentStrategy.BlockedHashes`: the hashes of seven canonical
useless windows, built with `NewNormalizedIndentEntry` (line number 0 and
empty source line). -/
def newNIEntry (indentDelta : Int) (word : String) : NormalizedIndentEntry :=
  ⟨0, indentDelta, word, ""⟩

/-- The `uselessPatterns` table of `NormalizedIndentStrategy.BlockedHashes`. -/
def niBlockedHashes : List Nat :=
  [ niHash [newNIEntry (-1) "\x7d", newNIEntry (-1) "\x7d"],
    niHash [newNIEntry (-1) "\x7d", newNIEntry (-1) "\x7d", newNIEntry (-1) "\x7d"],
    niHash [newNIEntry 0 "return", newNIEntry (-1) "\x7d"],
    niHash [newNIEntry 1 "return", newNIEntry (-1) "\x7d"],
    niHash [newNIEntry (-1) "\x7d", newNIEntry 0 "return", newNIEntry (-1) "\x7d"],
    niHash [newNIEntry (-1) "\x7d", newNIEntry 0 "func"],
    niHash [newNIEntry (-1) "\x7d", newNIEntry 0 "return"] ]

/-! ## similarity.go: tokenization, Jaccard, union-find -/

/-- Character class that terminates a token in `tokenizeLine`: any
separator, double quote, single quote or backquote. -/
def isTokenBreak (c : Char) : Bool :=
  isSeparator c ∨ c = '"' ∨ c = Char.ofNat 39 ∨ c = Char.ofNat 96

/-- The character walk of `tokenizeLine`, carrying the current token
accumulator (in reverse). -/
def tokenizeGo : List Char → List Char → List String
  | acc, [] => if acc.isEmpty then [] else [String.mk acc.reverse]
  | acc, c :: cs =>
    if isTokenBreak c then
      if acc.isEmpty then tokenizeGo [] cs
      else String.mk acc.reverse :: tokenizeGo [] cs
    else tokenizeGo (c :: acc) cs

/-- similarity.go `tokenizeLine`. -/
def tokenizeLine (line : String) : List String := tokenizeGo [] line.data

/-- similarity.go `tokenSimilarity`: Jaccard similarity on the two token
sets, with the Go edge cases for empty inputs. -/
def tokenSimilarity (a b : List String) : ℚ :=
  if a.isEmpty ∧ b.isEmpty then 1
  else if a.isEmpty ∨ b.isEmpty then 0
  else
    let setA := a.dedup
    let setB := b.dedup
    let inter := (setA.filter (fun t => setB.contains t)).length
    let union := setA.length + setB.length - inter
    if union = 0 then 0 else (inter : ℚ) / (union : ℚ)

/-- similarity.go `UnionFind` state. -/
structure UnionFind where
  parent : List Nat
  rank : List Nat
deriving Repr

/-- `NewUnionFind`. -/
def newUnionFind (n : Nat) : UnionFind := ⟨List.range n, List.replicate n 0⟩

/-- Walk parent links to the root (`Find`; path compression rewrites parent
links but never changes any element's root, so the fuel-indexed walk
computes the same root function). -/
def ufRoot (parent : List Nat) : Nat → Nat → Nat
  | 0, x => x
  | fuel + 1, x =>
    let p := parent.getD x x
    if p = x then x else ufRoot parent fuel p

/-- `UnionFind.Find`. -/
def UnionFind.find (uf : UnionFind) (x : Nat) : Nat :=
  ufRoot uf.parent uf.parent.length x

/-- `UnionFind.Union` with union by rank. -/
def UnionFind.union (uf : UnionFind) (x y : Nat) : UnionFind :=
  let px := uf.find x
  let py := uf.find y
  if px = py then uf
  else
    let pq : Nat × Nat :=
      if uf.rank.getD px 0 < uf.rank.getD py 0 then (py, px) else (px, py)
    let parent := uf.parent.set pq.2 pq.1
    let rank :=
      if uf.rank.getD pq.1 0 = uf.rank.getD pq.2 0 then
        uf.rank.set pq.1 (uf.rank.getD pq.1 0 + 1)
      else uf.rank
    ⟨parent, rank⟩

/-! ## Result model (entry.go structs), generic over the entry type -/

/-- entry.go `PatternLocation`. -/
structure PatternLocation (E : Type) where
  filename : String
  lineStart : Nat
  entryIndex : Nat
  pattern : List E
deriving DecidableEq, Repr

/-- entry.go `PatternMatch`. -/
structure PatternMatch (E : Type) where
  hash : Nat
  locations : List (PatternLocation E)
  pattern : List E
  similarity : ℚ
  score : Int
deriving DecidableEq, Repr

/-- similarity.go `ClusterResult`. -/
structure ClusterResult (E : Type) where
  locations : List (PatternLocation E)
  similarity : ℚ
deriving DecidableEq, Repr

/-- A Go `map` in insertion order: append to an existing key's list or add
the key at the end. -/
def insertAppend {β : Type} (m : List (Nat × List β)) (k : Nat) (v : β) :
    List (Nat × List β) :=
  match m with
  | [] => [(k, [v])]
  | (k', vs) :: rest =>
    if k' = k then (k', vs ++ [v]) :: rest else (k', vs) :: insertAppend rest k v

/-- Go `m[k] = v`: replace an existing key's value or add the key at the end. -/
def insertReplace {β : Type} (m : List (Nat × β)) (k : Nat) (v : β) :
    List (Nat × β) :=
  match m with
  | [] => [(k, v)]
  | (k', v') :: rest =>
    if k' = k then (k', v) :: rest else (k', v') :: insertReplace rest k v

/-- similarity.go `tokenizePattern`: all tokens of the window's raw lines. -/
def tokenizePattern {E : Type} (raw : E → String) (pattern : List E) : List String :=
  pattern.flatMap (fun e => tokenizeLine (raw e))

/-- All unordered pairs `(i, j)` with `i < j < n`, in the nested-loop order
of the Go code. -/
def pairList (n : Nat) : List (Nat × Nat) :=
  (List.range n).flatMap (fun i => ((List.range n).drop (i + 1)).map (fun j => (i, j)))

/-- One conditional swap of the cluster sort: swap slots `i` and `j` when
slot `j` holds the larger cluster. -/
def maybeSwap {α : Type} (key : α → Nat) (l : List α) (i j : Nat) : List α :=
  match l[i]?, l[j]? with
  | some a, some b => if key a < key b then (l.set i b).set j a else l
  | _, _ => l

/-- Inner loop of the cluster sort (`j` from `i+1` while `j < len`). -/
def innerSortLoop {α : Type} (key : α → Nat) (i : Nat) :
    Nat → Nat → List α → List α
  | 0, _, l => l
  | fuel + 1, j, l =>
    if j < l.length then innerSortLoop key i fuel (j + 1) (maybeSwap key l i j) else l

/-- Outer loop of the cluster sort (`i` from 0 while `i < len-1`). -/
def outerSortLoop {α : Type} (key : α → Nat) : Nat → Nat → List α → List α
  | 0, _, l => l
  | fuel + 1, i, l =>
    if i < l.length - 1 then outerSortLoop key fuel (i + 1) (innerSortLoop key i l.length (i + 1) l)
    else l

/-- The size-descending selection sort at the end of `clusterBySimilarity`. -/
def sortClustersBySize {E : Type} (l : List (ClusterResult E)) : List (ClusterResult E) :=
  outerSortLoop (fun c => c.locations.length) l.length 0 l

/-- similarity.go `clusterBySimilarity`: union-find over the pairs with
similarity at least the threshold, then one cluster per root with the mean
pairwise similarity of its members, sorted by descending size. -/
def clusterBySimilarity {E : Type} (raw : E → String)
    (locations : List (PatternLocation E)) (threshold : ℚ) : List (ClusterResult E) :=
  let n := locations.length
  if n < 2 then [⟨locations, 1⟩]
  else
    let tokenized := locations.map (fun loc => tokenizePattern raw loc.pattern)
    let sim : Nat → Nat → ℚ := fun i j => tokenSimilarity (tokenized.getD i []) (tokenized.getD j [])
    let uf := (pairList n).foldl
      (fun uf p => if threshold ≤ sim p.1 p.2 then uf.union p.1 p.2 else uf)
      (newUnionFind n)
    let clusterMap := (List.range n).foldl (fun m i => insertAppend m (uf.find i) i) []
    let results := clusterMap.map (fun g =>
      let indices := g.2
      let cluster := indices.filterMap (fun idx => locations[idx]?)
      let posPairs := pairList indices.length
      let tot := (posPairs.map (fun p =>
        let a := indices.getD p.1 0
        let b := indices.getD p.2 0
        sim (min a b) (max a b))).sum
      let npairs := posPairs.length
      ClusterResult.mk cluster (if npairs = 0 then 1 else tot / (npairs : ℚ)))
    sortClustersBySize results

/-! ## detector.go -/

/-- The keep/drop sweep of `filterOverlappingOccurrences` over one file's
locations (already sorted by entry index): keep a location iff its start is
at least the `lastEnd` cursor, then advance the cursor to start + length. -/
def sweep {E : Type} (patternLen : Nat) : Int → List (PatternLocation E) → List (PatternLocation E)
  | _, [] => []
  | lastEnd, loc :: rest =>
    if lastEnd ≤ (loc.entryIndex : Int) then
      loc :: sweep patternLen ((loc.entryIndex : Int) + patternLen) rest
    else sweep patternLen lastEnd rest

/-- Sort one file's locations by entry index (Go `sort.Slice`). -/
def sortByEntryIndex {E : Type} (locs : List (PatternLocation E)) : List (PatternLocation E) :=
  List.insertionSort (fun a b => a.entryIndex ≤ b.entryIndex) locs

/-- One file's group in `filterOverlappingOccurrences`: its locations,
passed through the sweep unless the group is a singleton. -/
def fileBlock {E : Type} (locs : List (PatternLocation E)) (patternLen : Nat)
    (f : String) : List (PatternLocation E) :=
  if (locs.filter (fun loc => loc.filename = f)).length = 1 then
    locs.filter (fun loc => loc.filename = f)
  else sweep patternLen (-1) (sortByEntryIndex (locs.filter (fun loc => loc.filename = f)))

/-- detector.go `filterOverlappingOccurrences`: group by file, sort each
group by entry index, and keep only non-overlapping occurrences (earliest
first), starting the cursor at -1. -/
def filterOverlappingOccurrences {E : Type} (locs : List (PatternLocation E))
    (patternLen : Nat) : List (PatternLocation E) :=
  if locs.length ≤ 1 then locs
  else ((locs.map (·.filename)).dedup).flatMap (fileBlock locs patternLen)

/-- All base windows of one file at length `minSize`, with their hashes
(the body of `generateBasePatternsParallel`'s per-file loop). -/
def windowsOfFile {E : Type} (hashFn : List E → Nat) (lineNo : E → Nat)
    (filename : String) (entries : List E) (minSize : Nat) :
    List (Nat × PatternLocation E) :=
  (List.range (entries.length + 1 - minSize)).map (fun i =>
    let window := (entries.drop i).take minSize
    (hashFn window,
     ⟨filename, (((entries.drop i).head?).map lineNo).getD 0, i, window⟩))

/-- `generateBasePatternsParallel`, sequentialized in file order. -/
def generateBasePatterns {E : Type} (hashFn : List E → Nat) (lineNo : E → Nat)
    (fileData : List (String × List E)) (minSize : Nat) :
    List (Nat × List (PatternLocation E)) :=
  fileData.foldl
    (fun m fd =>
      (windowsOfFile hashFn lineNo fd.1 fd.2 minSize).foldl
        (fun m hw => insertAppend m hw.1 hw.2) m)
    []

/-- `extendPatternsParallel`: extend every surviving location by one line,
skipping those running past their file's entry list. -/
def extendPatterns {E : Type} (hashFn : List E → Nat)
    (survivors : List (Nat × List (PatternLocation E)))
    (fileData : List (String × List E)) (newLen : Nat) :
    List (Nat × List (PatternLocation E)) :=
  (survivors.flatMap (·.2)).foldl
    (fun m loc =>
      let entries := ((fileData.find? (fun fd => fd.1 = loc.filename)).map (·.2)).getD []
      if loc.entryIndex + newLen ≤ entries.length then
        insertAppend m (hashFn ((entries.drop loc.entryIndex).take newLen))
          ⟨loc.filename, loc.lineStart, loc.entryIndex, (entries.drop loc.entryIndex).take newLen⟩
      else m)
    []

/-- The grow loop of `detectPatterns`.  At entry of each iteration the Go
variables `survivors` and `previousGen` are equal (both are assigned the
new generation at the end of each pass), so one argument carries both.
The fuel only bounds the iteration count; the loop exits by itself once
the generation is empty. -/
def detectLoop {E : Type} (hashFn : List E → Nat)
    (fileData : List (String × List E)) (minOccur : Nat) (keepOverlaps : Bool) :
    Nat → List (Nat × List (PatternLocation E)) → Nat →
    List (Nat × List (PatternLocation E)) → List (Nat × List (PatternLocation E))
  | 0, _, _, acc => acc
  | fuel + 1, gen, curLen, acc =>
    if gen.isEmpty then acc
    else
      let newLen := curLen + 1
      let next := extendPatterns hashFn gen fileData newLen
      let newGen := next.filter (fun b => minOccur ≤ b.2.length)
      let grew := newGen.flatMap (fun b => b.2.map (fun loc => (loc.filename, loc.entryIndex)))
      let acc2 := gen.foldl
        (fun acc b =>
          let filteredLocs := b.2.filter (fun loc => ¬ grew.contains (loc.filename, loc.entryIndex))
          let pruned := if keepOverlaps then filteredLocs
            else filterOverlappingOccurrences filteredLocs curLen
          if minOccur ≤ pruned.length then insertReplace acc b.1 pruned else acc)
        acc
      detectLoop hashFn fileData minOccur keepOverlaps fuel newGen newLen acc2

/-- detector.go `detectPatterns`: base windows at `min_size`, filter by
`min_occur`, then grow to maximality. -/
def detectPatterns {E : Type} (hashFn : List E → Nat) (lineNo : E → Nat)
    (fileData : List (String × List E)) (minOccur minSize : Nat)
    (keepOverlaps : Bool) : List (Nat × List (PatternLocation E)) :=
  let base := generateBasePatterns hashFn lineNo fileData minSize
  let survivors := base.filter (fun b => minOccur ≤ b.2.length)
  detectLoop hashFn fileData minOccur keepOverlaps
    ((fileData.map (fun fd => fd.2.length)).sum + 2) survivors minSize []

/-! ## filter.go -/

/-- filter.go `FilterConfig` (the user-ignored set as a list of hashes). -/
structure FilterConfig where
  minOccur : Nat
  minScore : Int
  minSimilarity : ℚ
  userIgnored : List Nat

/-- filter.go `FilterPatterns`: drop blocked/ignored buckets and those
under `min_occur`, cluster each candidate by similarity, score each cluster
that still meets `min_occur`, drop clusters scoring under `min_score`, and
sort the matches by score descending with hash as tiebreak. -/
def FilterPatterns {E : Type} (raw : E → String) (scoreFn : List E → ℚ → Int)
    (blockedHashes : List Nat) (patterns : List (Nat × List (PatternLocation E)))
    (config : FilterConfig) : List (PatternMatch E) :=
  let candidates := patterns.filter (fun b =>
    ¬ blockedHashes.contains b.1 ∧ ¬ config.userIgnored.contains b.1 ∧
      config.minOccur ≤ b.2.length)
  let ms := candidates.flatMap (fun c =>
    let cpattern := ((c.2.head?).map (·.pattern)).getD []
    (clusterBySimilarity raw c.2 config.minSimilarity).filterMap (fun cluster =>
      if cluster.locations.length < config.minOccur then none
      else
        let baseScore := scoreFn cpattern cluster.similarity
        let score := baseScore * (cluster.locations.length : Int)
        if score < config.minScore then none
        else some ⟨c.1, cluster.locations,
          ((cluster.locations.head?).map (·.pattern)).getD [],
          cluster.similarity, score⟩))
  List.insertionSort
    (fun a b => b.score < a.score ∨ (a.score = b.score ∧ a.hash ≤ b.hash)) ms

/-! ## End-to-end pipeline for the normalized-indent strategy -/

/-- Parse each file's content with the normalized-indent strategy (files of
one extension, as produced by the walker; the comment prefix comes from the
extension table). -/
def niParseFiles (ext commentPfx : String) (files : List (String × String)) :
    List (String × List NormalizedIndentEntry) :=
  files.map (fun f => (f.1, parseContent (niParseLine ext commentPfx) f.2))

/-- Detection followed by filtering under the normalized-indent strategy:
the pipeline of one `quickdup` run (walker, cache and output writers are
external collaborators). -/
def niPipeline (ext commentPfx : String) (files : List (String × String))
    (minSize : Nat) (keepOverlaps : Bool) (config : FilterConfig) :
    List (PatternMatch NormalizedIndentEntry) :=
  FilterPatterns (·.sourceLine) niScore niBlockedHashes
    (detectPatterns niHash (·.lineNumber) (niParseFiles ext commentPfx files)
      config.minOccur minSize keepOverlaps)
    config

/-! ## Spec-side definitions

These definitions follow the specification's wording (they are the
comparison side of the refinement claims, not translations of the Go
code). -/

/-- Spec wording for the inlineable shape: an access modifier, then either
`{ return }` or `return }`, optionally followed by trailing lines (word
positions read with `""` past the end). -/
def inlineableShape (words : List String) : Bool :=
  accessModifiers.contains (words.getD 0 "") ∧
    ((words.getD 1 "" = "\x7b" ∧ words.getD 2 "" = "return" ∧ words.getD 3 "" = "\x7d") ∨
     (words.getD 1 "" = "return" ∧ words.getD 2 "" = "\x7d"))

/-- Spec formula for the inlineable score as claimed: non-zero exactly on
3-to-6-line access-modifier shapes, where it is `50 + floor(max(0, 2·sim −
1) × 50)`. -/
def specInlineableScore (L : Nat) (words : List String) (sim : ℚ) : Int :=
  if 3 ≤ L ∧ L ≤ 6 ∧ inlineableShape words then
    50 + (max (2 * sim - 1) 0 * 50).floor
  else 0

/-- The inlineable score formula with the window-length gate the code
actually uses (3 to 5 lines). -/
def specInlineableScoreFixed (L : Nat) (words : List String) (sim : ℚ) : Int :=
  if 3 ≤ L ∧ L ≤ 5 ∧ inlineableShape words then
    50 + (max (2 * sim - 1) 0 * 50).floor
  else 0

/-- Partial sums of the indent deltas after each list element, starting
from `r0` (the running sum of the spec wording). -/
def partialSums (r0 : Int) : List Int → List Int
  | [] => []
  | d :: ds => (r0 + d) :: partialSums (r0 + d) ds

/-- Spec wording for the normalized-indent imbalance: with `r` the
cumulative sum of indent deltas and `m` the minimum of the running sum
(0 included as the initial value), `imbalance = max(0, r) + max(0, −m)`. -/
def specNIImbalance (ds : List Int) : Int :=
  let r := ds.sum
  let m := (0 :: partialSums 0 ds).foldl min 0
  max 0 r + max 0 (-m)

/-- Spec wording for `effective = max(0, unique_words − imbalance)`. -/
def specNIEffective (entries : List NormalizedIndentEntry) : Int :=
  max 0 (((entries.map (·.word)).dedup.length : Int) -
    specNIImbalance (entries.map (·.indentDelta)))

/-- Spec formula for the normalized-indent score exactly as claimed
(a rational value: `effective × max(0, 2·sim − 1)³ + floor(L / 20)`,
with no truncation of the product term). -/
def specNormalizedIndentScoreQ (entries : List NormalizedIndentEntry) (sim : ℚ) : ℚ :=
  (specNIEffective entries : ℚ) * (max (2 * sim - 1) 0) ^ 3 +
    ((entries.length / 20 : Nat) : ℚ)

/-- The normalized-indent score formula with the truncation the code
actually performs on the product term. -/
def specNormalizedIndentScoreFloor (entries : List NormalizedIndentEntry) (sim : ℚ) : Int :=
  ((specNIEffective entries : ℚ) * (max (2 * sim - 1) 0) ^ 3).floor +
    ((entries.length / 20 : Nat) : Int)

/-- Concatenated serialized payload bytes of a word-only window. -/
def woPayload (entries : List WordOnlyEntry) : List Nat :=
  entries.flatMap WordOnlyEntry.hashBytes

/-- Concatenated serialized payload bytes of a normalized-indent window. -/
def niPayload (entries : List NormalizedIndentEntry) : List Nat :=
  entries.flatMap NormalizedIndentEntry.hashBytes

/-! ## Concrete inputs used by the claim theorems -/

/-- A six-line window whose word sequence is an access-modifier one-liner
shape with two trailing brace lines. -/
def c4win : List InlineableEntry :=
  [⟨1, "public", "public int GetA()"⟩, ⟨2, "\x7b", "\x7b return a \x7d"⟩,
   ⟨3, "return", "return a"⟩, ⟨4, "\x7d", "\x7d"⟩, ⟨5, "\x7d", "\x7d"⟩, ⟨6, "\x7d", "\x7d"⟩]

/-- A balanced three-line window with one distinct word. -/
def c5win : List NormalizedIndentEntry :=
  [⟨1, 0, "a", "a"⟩, ⟨2, 0, "a", "a"⟩, ⟨3, 0, "a", "a"⟩]

/-- Single-entry word-only windows indexed by the word length; distinct
indices give byte-distinct payloads. -/
def c7family (n : Nat) : List WordOnlyEntry :=
  [⟨0, String.mk (List.replicate (n + 1) 'a'), ""⟩]

/-- Scenario B content (claim C2): a five-line sequence twice, the copies
separated by one unrelated line. -/
def scenarioBContent : String :=
  "if x \x7b\n    return y\n\x7d\ndo z\ndone\nunrelated\nif x \x7b\n    return y\n\x7d\ndo z\ndone"

/-- Scenario B run: one file, strategy normalized-indent, min_size 3,
min_occur 2, min_score 0, min_similarity 1/2, keep_overlaps false. -/
def scenarioBMatches : List (PatternMatch NormalizedIndentEntry) :=
  niPipeline ".go" "//" [("b.go", scenarioBContent)] 3 false ⟨2, 0, 1/2, []⟩

/-- Scenario C content (claim C3): six identical statements in a row. -/
def scenarioCContent : String :=
  "x := 0\nx := 0\nx := 0\nx := 0\nx := 0\nx := 0"

/-- Scenario C run, same parameters as scenario B. -/
def scenarioCMatches : List (PatternMatch NormalizedIndentEntry) :=
  niPipeline ".go" "//" [("c.go", scenarioCContent)] 3 false ⟨2, 0, 1/2, []⟩

/-- Claim C1 input: three fingerprint-identical three-line windows whose
token sets make every union-find edge pass the 1/2 threshold except one,
dragging the cluster average below 1/2. -/
def c1Content : String :=
  "q a1 a2\nr a3 a4\ns a5\nsepA\nq a1 a2 b1\nr a3 a4 b2\ns a5 b3 b4 b5\nsepB\nq b1 b2\nr b3 b4\ns b5"

/-- Claim C1 run, same parameters as scenario B. -/
def c1Matches : List (PatternMatch NormalizedIndentEntry) :=
  niPipeline ".go" "//" [("a.go", c1Content)] 3 false ⟨2, 0, 1/2, []⟩

/-- A small two-duplicate input for concrete detector-output witnesses. -/
def c6FileData : List (String × List NormalizedIndentEntry) :=
  niParseFiles ".go" "//" [("w.go", "x\ny\nx\ny\nz")]

/-- Detector output on `c6FileData` with `min_occur 2`, `min_size 1`,
overlap pruning on. -/
def c6Buckets : List (Nat × List (PatternLocation NormalizedIndentEntry)) :=
  detectPatterns niHash (·.lineNumber) c6FileData 2 1 false

/-- The first bucket of `c6Buckets`. -/
def c6Bucket0 : Nat × List (PatternLocation NormalizedIndentEntry) :=
  c6Buckets.getD 0 (0, [])

/-- The first match of the claim C1 run. -/
def c1Match0 : PatternMatch NormalizedIndentEntry :=
  c1Matches.getD 0 ⟨0, [], [], 0, 0⟩

/-- A single location (for the singleton clustering witness). -/
def c9loc : PatternLocation WordOnlyEntry :=
  ⟨"w.go", 1, 0, [⟨1, "x", "x := 1"⟩]⟩

/-- A three-entry window shared by the overlap-pruning witness locations. -/
def c10pat : List WordOnlyEntry :=
  [⟨1, "w", "w"⟩, ⟨2, "w", "w"⟩, ⟨3, "w", "w"⟩]

/-- Three same-file locations, the first two overlapping at length 3. -/
def c10locs : List (PatternLocation WordOnlyEntry) :=
  [⟨"f.go", 1, 0, c10pat⟩, ⟨"f.go", 2, 1, c10pat⟩, ⟨"f.go", 5, 4, c10pat⟩]

/-- Overlap-freedom of one bucket: all its windows share one length `L`,
and within each file its locations, sorted by start index, are pairwise
separated by at least `L`. -/
def SeparatedLocs {E : Type} (locs : List (PatternLocation E)) : Prop :=
  ∃ L, (∀ loc ∈ locs, loc.pattern.length = L) ∧
    ∀ f, List.Pairwise (fun a c => a.entryIndex + L ≤ c.entryIndex)
      (sortByEntryIndex (locs.filter (fun loc => loc.filename = f)))

end QuickDup

namespace QuickDup

/-! ## General lemmas about the embedding -/

/-- `goTrunc` agrees with `Rat.floor` on non-negative rationals (all the
truncated Go expressions in the scoring code are non-negative). -/
theorem goTrunc_of_nonneg {q : ℚ} (hq : 0 ≤ q) : goTrunc q = q.floor := by
  unfold goTrunc
  rw [if_neg (not_lt.mpr hq)]

/-- A non-negative rational has a non-negative floor. -/
theorem ratFloor_nonneg {q : ℚ} (hq : 0 ≤ q) : 0 ≤ q.floor :=
  Rat.le_floor.mpr (by exact_mod_cast hq)

/-- One FNV-1a step stays below `2^64`. -/
theorem fnvStep_lt (h b : Nat) : fnvStep h b < 2 ^ 64 :=
  Nat.mod_lt _ (by positivity)

/-- Writing byte lists keeps the FNV-1a state below `2^64`. -/
theorem fnvWrite_lt (bs : List Nat) {h : Nat} (hh : h < 2 ^ 64) :
    fnvWrite h bs < 2 ^ 64 := by
  induction bs generalizing h with
  | nil => exact hh
  | cons b bs ih => exact ih (fnvStep_lt h b)

/-- Every strategy hash value is below `2^64`. -/
theorem hashEntries_lt {E : Type} (hb : E → List Nat) (es : List E) :
    hashEntries hb es < 2 ^ 64 := by
  have aux : ∀ (l : List E) (h : Nat), h < 2 ^ 64 →
      l.foldl (fun h e => fnvWrite h (hb e)) h < 2 ^ 64 := by
    intro l
    induction l with
    | nil => intro h hh; exact hh
    | cons e l ih => intro h hh; exact ih _ (fnvWrite_lt _ hh)
  exact aux es fnvOffset (by decide)

/-- Feeding a concatenation equals feeding the pieces in order. -/
theorem fnvWrite_append (h : Nat) (bs cs : List Nat) :
    fnvWrite h (bs ++ cs) = fnvWrite (fnvWrite h bs) cs := by
  unfold fnvWrite
  exact List.foldl_append ..

/-- The per-entry FNV-1a fold equals the hash of the concatenated payload
bytes: the strategy hash is a function of the serialized payload alone. -/
theorem hashEntries_eq_fnv {E : Type} (hb : E → List Nat) (es : List E) :
    hashEntries hb es = fnv1a (es.flatMap hb) := by
  have aux : ∀ (l : List E) (h : Nat),
      l.foldl (fun h e => fnvWrite h (hb e)) h = fnvWrite h (l.flatMap hb) := by
    intro l
    induction l with
    | nil => intro h; rfl
    | cons e l ih =>
      intro h
      rw [List.flatMap_cons, List.foldl_cons, ih, fnvWrite_append]
  exact aux es fnvOffset

/-- Payload length of the `c7family` windows grows with the index. -/
theorem c7family_payload_length (n : Nat) :
    (woPayload (c7family n)).length = n + 2 := by
  simp [woPayload, c7family, WordOnlyEntry.hashBytes, byteSeq]

end QuickDup

namespace QuickDup

/-! ## Claim C7: hash vs payload bytes -/

/-- C7 counterexample: the claimed equivalence "hash(A) = hash(B) iff the
serialized payload sequences are byte-identical" is false: a 64-bit hash
cannot be injective on the infinitely many distinct single-entry payload
sequences, so two byte-distinct windows share a hash. -/
theorem C7_counterexample :
    ¬ ((∀ A B : List WordOnlyEntry, woHash A = woHash B ↔ woPayload A = woPayload B) ∧
       (∀ A B : List NormalizedIndentEntry, niHash A = niHash B ↔ niPayload A = niPayload B)) := by
  rintro ⟨hwo, -⟩
  have hfin : ∀ n : Nat, woHash (c7family n) < 2 ^ 64 := fun n => hashEntries_lt _ _
  obtain ⟨n, m, hne, heq⟩ :=
    Finite.exists_ne_map_eq_of_infinite
      (fun n : Nat => (⟨woHash (c7family n), hfin n⟩ : Fin (2 ^ 64)))
  apply hne
  have hh : woHash (c7family n) = woHash (c7family m) := congrArg Fin.val heq
  have hl := congrArg List.length ((hwo _ _).mp hh)
  rw [c7family_payload_length, c7family_payload_length] at hl
  omega

/-- C7 (amended): byte-identical serialized payload sequences always give
equal strategy hashes (the hash is a function of the concatenated payload
bytes); the converse direction of the claimed iff does not hold. -/
theorem C7_hash_of_payload :
    (∀ A B : List WordOnlyEntry, woPayload A = woPayload B → woHash A = woHash B) ∧
    (∀ A B : List NormalizedIndentEntry, niPayload A = niPayload B → niHash A = niHash B) := by
  constructor
  · intro A B h
    unfold woHash
    rw [hashEntries_eq_fnv, hashEntries_eq_fnv]
    exact congrArg fnv1a h
  · intro A B h
    unfold niHash
    rw [hashEntries_eq_fnv, hashEntries_eq_fnv]
    exact congrArg fnv1a h

/-- C7 witness: two windows differing only in line numbers and raw text
have byte-identical payloads, hence equal hashes. -/
theorem C7_hash_of_payload_witness :
    woHash [⟨1, "x", "x := f()"⟩] = woHash [⟨2, "x", "x := g()"⟩] ∧
    niHash [⟨1, 0, "y", "y"⟩] = niHash [⟨7, 0, "y", "  y"⟩] :=
  ⟨C7_hash_of_payload.1 _ _ (by decide), C7_hash_of_payload.2 _ _ (by decide)⟩

/-! ## Claim C8: first-token deny list -/

/-- C8 counterexample: the deny-list skip does not hold for every strategy:
the word-indent strategy's ParseLine never consults the deny list, so a
`.go` line starting with `import` is parsed rather than skipped. -/
theorem C8_counterexample :
    ¬ (∀ (ext commentPfx : String) (lineNum : Nat) (line : String)
        (pwi : Option WordIndentEntry) (pni : Option NormalizedIndentEntry)
        (pwo : Option WordOnlyEntry) (pinl : Option InlineableEntry),
        extractFirstWord line ∈ skipWordsFor ext →
          wiParseLine commentPfx lineNum line pwi = none ∧
          niParseLine ext commentPfx lineNum line pni = none ∧
          woParseLine ext commentPfx lineNum line pwo = none ∧
          inlParseLine ext commentPfx lineNum line pinl = none) := by
  intro h
  have h1 := (h ".go" "//" 1 "import foo" none none none none (by decide)).1
  exact absurd h1 (by decide)

/-- C8 (amended): for the normalized-indent, word-only and inlineable
strategies (but not word-indent), any line whose first token is in the
extension's deny list is skipped by ParseLine. -/
theorem C8_denylist_skip :
    ∀ (ext commentPfx : String) (lineNum : Nat) (line : String),
      extractFirstWord line ∈ skipWordsFor ext →
        (∀ p, niParseLine ext commentPfx lineNum line p = none) ∧
        (∀ p, woParseLine ext commentPfx lineNum line p = none) ∧
        (∀ p, inlParseLine ext commentPfx lineNum line p = none) := by
  intro ext cp n line hmem
  have hskip : shouldSkipByFirstWord ext line = true := by
    simpa [shouldSkipByFirstWord] using hmem
  refine ⟨fun p => ?_, fun p => ?_, fun p => ?_⟩ <;>
    simp [niParseLine, woParseLine, inlParseLine, hskip]

/-- C8 witness: a `.go` line starting with `import` is skipped by the three
deny-list-aware strategies. -/
theorem C8_denylist_skip_witness :
    niParseLine ".go" "//" 1 "import foo" none = none ∧
    woParseLine ".go" "//" 1 "import foo" none = none ∧
    inlParseLine ".go" "//" 1 "import foo" none = none := by
  obtain ⟨h1, h2, h3⟩ := C8_denylist_skip ".go" "//" 1 "import foo" (by decide)
  exact ⟨h1 none, h2 none, h3 none⟩

end QuickDup

namespace QuickDup

/-! ## Claim C4: inlineable score -/

/-- The clamped similarity used by the scoring code equals
`max (2·sim − 1) 0`. -/
theorem adjustedSim_eq_max (sim : ℚ) :
    (if sim * 2 - 1 < 0 then (0:ℚ) else sim * 2 - 1) = max (2 * sim - 1) 0 := by
  have hc : sim * 2 - 1 = 2 * sim - 1 := by ring
  rw [hc]
  rcases lt_or_le (2 * sim - 1) 0 with h | h
  · rw [if_pos h, max_eq_right h.le]
  · rw [if_neg (not_lt.mpr h), max_eq_left h]

/-- The code's two-pattern word check agrees with the spec's shape
predicate (the explicit `4 ≤ len` guard of pattern A is implied by the
fourth word being a brace). -/
theorem inl_match_iff (words : List String) :
    ((4 ≤ words.length ∧ accessModifiers.contains (words.getD 0 "") ∧
        words.getD 1 "" = "\x7b" ∧ words.getD 2 "" = "return" ∧ words.getD 3 "" = "\x7d") ∨
      (accessModifiers.contains (words.getD 0 "") ∧
        words.getD 1 "" = "return" ∧ words.getD 2 "" = "\x7d"))
    ↔ inlineableShape words = true := by
  unfold inlineableShape
  rw [decide_eq_true_eq]
  constructor
  · rintro (⟨_, hc, h1, h2, h3⟩ | ⟨hc, h1, h2⟩)
    · exact ⟨hc, Or.inl ⟨h1, h2, h3⟩⟩
    · exact ⟨hc, Or.inr ⟨h1, h2⟩⟩
  · rintro ⟨hc, hA | hB⟩
    · left
      refine ⟨?_, hc, hA.1, hA.2.1, hA.2.2⟩
      by_contra hlt
      have hd : words.getD 3 "" = "" := List.getD_eq_default _ _ (by omega)
      rw [hd] at hA
      exact absurd hA.2.2 (by decide)
    · exact Or.inr ⟨hc, hB⟩

/-- C4 (amended, equality part): the inlineable score equals the spec
formula with the length gate corrected to 3-5 lines. -/
theorem C4_score_eq :
    ∀ (entries : List InlineableEntry) (sim : ℚ),
      inlScore entries sim =
        specInlineableScoreFixed entries.length (entries.map (·.word)) sim := by
  intro entries sim
  have hmm := inl_match_iff (entries.map (·.word))
  unfold inlScore specInlineableScoreFixed
  dsimp only
  by_cases hout : entries.length < 3 ∨ entries.length > 5
  · rw [if_pos hout, if_neg (by rintro ⟨h3, h5, -⟩; omega)]
  · rw [if_neg hout]
    by_cases hshape : inlineableShape (entries.map (·.word)) = true
    · rw [if_pos (hmm.mpr hshape)]
      conv_rhs =>
        rw [if_pos (show 3 ≤ entries.length ∧ entries.length ≤ 5 ∧
          inlineableShape (entries.map (·.word)) = true from ⟨by omega, by omega, hshape⟩)]
      rw [adjustedSim_eq_max sim, goTrunc_of_nonneg (by positivity)]
    · rw [if_neg (fun hm => hshape (hmm.mp hm)),
        if_neg (by rintro ⟨-, -, hs⟩; exact hshape hs)]

/-- C4 (amended, gate part): the score is non-zero exactly on 3-to-5-line
windows of the inlineable shape. -/
theorem C4_score_nonzero_iff :
    ∀ (entries : List InlineableEntry) (sim : ℚ),
      inlScore entries sim ≠ 0 ↔
        (3 ≤ entries.length ∧ entries.length ≤ 5 ∧
          inlineableShape (entries.map (·.word)) = true) := by
  intro entries sim
  rw [C4_score_eq]
  unfold specInlineableScoreFixed
  by_cases hcond : 3 ≤ entries.length ∧ entries.length ≤ 5 ∧
      inlineableShape (entries.map (·.word)) = true
  · rw [if_pos hcond]
    have h50 : (0:Int) ≤ (max (2 * sim - 1) 0 * 50).floor :=
      ratFloor_nonneg (by positivity)
    constructor
    · intro _; exact hcond
    · intro _; omega
  · rw [if_neg hcond]
    simp [hcond]

end QuickDup

namespace QuickDup

/-- C4 counterexample: a six-line window of the inlineable shape with
similarity 1 scores 0 in the code, not the claimed `50 + floor(max(0,
2·sim − 1) × 50)` (the code's length gate stops at 5 lines, not 6). -/
theorem C4_counterexample :
    ¬ (∀ (entries : List InlineableEntry) (sim : ℚ),
        inlScore entries sim =
          specInlineableScore entries.length (entries.map (·.word)) sim) := by
  intro h
  exact absurd (h c4win 1) (by decide)

/-- C4 (amended): the inlineable score is non-zero exactly on 3-to-5-line
windows (not 3-to-6) whose word sequence is an access-modifier-led
one-liner shape, where it equals `50 + floor(max(0, 2·sim − 1) × 50)`, and
it is 0 otherwise. -/
theorem C4_inlineable_score :
    ∀ (entries : List InlineableEntry) (sim : ℚ),
      inlScore entries sim =
        specInlineableScoreFixed entries.length (entries.map (·.word)) sim ∧
      (inlScore entries sim ≠ 0 ↔
        (3 ≤ entries.length ∧ entries.length ≤ 5 ∧
          inlineableShape (entries.map (·.word)) = true)) :=
  fun entries sim => ⟨C4_score_eq entries sim, C4_score_nonzero_iff entries sim⟩

/-! ## Claim C5: normalized-indent score -/

/-- The running-sum/minimum fold of `niScore` computes the total delta sum
and the minimum over the partial sums. -/
theorem niFold_eq (ds : List Int) :
    ∀ (r0 m0 : Int),
      ds.foldl (fun (p : Int × Int) d =>
        (p.1 + d, if p.1 + d < p.2 then p.1 + d else p.2)) (r0, m0)
      = (r0 + ds.sum, (partialSums r0 ds).foldl min m0) := by
  induction ds with
  | nil => intro r0 m0; simp [partialSums]
  | cons d ds ih =>
    intro r0 m0
    simp only [List.foldl_cons, List.sum_cons, partialSums]
    rw [ih]
    have h1 : (if r0 + d < m0 then r0 + d else m0) = min m0 (r0 + d) := by
      rw [Int.min_def]
      split_ifs <;> omega
    rw [h1, show r0 + d + ds.sum = r0 + (d + ds.sum) by ring]

/-- A min-fold never exceeds its seed. -/
theorem foldl_min_le (l : List Int) : ∀ m0 : Int, l.foldl min m0 ≤ m0 := by
  induction l with
  | nil => intro m0; exact le_refl m0
  | cons x l ih => intro m0; exact le_trans (ih (min m0 x)) (min_le_left m0 x)

/-- C5 counterexample: on a balanced three-line window with one distinct
word and similarity 3/4, the code scores 0 while the claimed formula
(without truncation of the product term) gives the non-integer 1/8. -/
theorem C5_counterexample :
    niScore c5win (3/4) = 0 ∧
    specNormalizedIndentScoreQ c5win (3/4) = 1/8 ∧ ((0:ℚ) ≠ 1/8) :=
  ⟨by decide, by decide, by decide⟩

/-- C5 (amended): the normalized-indent score equals
`floor(effective × max(0, 2·sim − 1)³) + floor(L / 20)` — with the product
term truncated — where `effective` is derived from the unique first words
and the indent-delta imbalance exactly as the spec states. -/
theorem C5_ni_score :
    ∀ (entries : List NormalizedIndentEntry) (sim : ℚ),
      niScore entries sim = specNormalizedIndentScoreFloor entries sim := by
  intro entries sim
  unfold niScore specNormalizedIndentScoreFloor specNIEffective specNIImbalance
  dsimp only
  rw [← List.foldl_map (fun e : NormalizedIndentEntry => e.indentDelta)
    (fun (p : Int × Int) d => (p.1 + d, if p.1 + d < p.2 then p.1 + d else p.2)),
    niFold_eq]
  dsimp only
  have hm0 : ((0 : Int) :: partialSums 0 (entries.map (·.indentDelta))).foldl min 0
      = (partialSums 0 (entries.map (·.indentDelta))).foldl min 0 := by
    rw [List.foldl_cons, min_self]
  rw [hm0]
  set ds := entries.map (·.indentDelta) with hds
  set m := (partialSums 0 ds).foldl min 0 with hmdef
  set u := (entries.map (·.word)).dedup.length with hu
  have hmle : m ≤ 0 := foldl_min_le _ _
  have hcomb : (if (0:Int) + ds.sum < 0 then 0 else 0 + ds.sum) + -m
      = max 0 ds.sum + max 0 (-m) := by
    rw [max_def, max_def]
    split_ifs <;> omega
  have heff : ∀ X : Int, (if (u : Int) - X < 0 then (0:Int) else (u : Int) - X)
      = max 0 ((u : Int) - X) := by
    intro X
    rw [max_def]
    split_ifs <;> omega
  rw [show -m + (if (0:Int) + ds.sum < 0 then 0 else 0 + ds.sum)
      = (if (0:Int) + ds.sum < 0 then 0 else 0 + ds.sum) + -m by ring, hcomb, heff,
    adjustedSim_eq_max sim]
  have hnn : (0:ℚ) ≤ max (2 * sim - 1) 0 := le_max_right _ _
  rw [goTrunc_of_nonneg (by positivity), pow_three, mul_assoc]

end QuickDup

namespace QuickDup

/-! ## Claim C1: filter-stage thresholds -/

/-- C1 counterexample: a run with `min_score 0` and `min_similarity 1/2`
emits a Match whose cluster-average token similarity is 19/39 < 1/2: the
filter never compares the cluster average against `min_similarity`, and a
union-find cluster chained through two passing edges can average below the
threshold. -/
theorem C1_counterexample :
    c1Matches.map (fun m => (m.locations.length, m.similarity, m.score)) =
      [(3, 19/39, 0)] ∧ ((19:ℚ)/39 < 1/2) :=
  ⟨by decide, by decide⟩

/-- C1 (amended): every Match emitted by the filter stage has score at
least `min_score`; no lower bound on the cluster-average similarity holds
(only each unioning pairwise similarity reaches the threshold). -/
theorem C1_score_floor :
    ∀ {E : Type} (raw : E → String) (scoreFn : List E → ℚ → Int)
      (blockedHashes : List Nat)
      (patterns : List (Nat × List (PatternLocation E)))
      (config : FilterConfig) (m : PatternMatch E),
      m ∈ FilterPatterns raw scoreFn blockedHashes patterns config →
        config.minScore ≤ m.score := by
  intro E raw scoreFn blocked patterns config m hm
  unfold FilterPatterns at hm
  have hm2 := (List.perm_insertionSort _ _).mem_iff.mp hm
  rw [List.mem_flatMap] at hm2
  obtain ⟨c, _, hmc⟩ := hm2
  rw [List.mem_filterMap] at hmc
  obtain ⟨cluster, _, hres⟩ := hmc
  dsimp only at hres
  split_ifs at hres with h1 h2
  obtain rfl := Option.some.inj hres
  dsimp only
  exact not_lt.mp h2

/-- C1 witness: the Match of the C1 run scores at least the configured
`min_score` of 0. -/
theorem C1_score_floor_witness : (0:Int) ≤ c1Match0.score :=
  C1_score_floor (·.sourceLine) niScore niBlockedHashes
    (detectPatterns niHash (·.lineNumber)
      (niParseFiles ".go" "//" [("a.go", c1Content)]) 2 3 false)
    ⟨2, 0, 1/2, []⟩ c1Match0 (by decide)

/-! ## Claim C2: scenario B (maximality) -/

/-- C2 counterexample: on the scenario-B file the pipeline emits three
Matches (lengths 5, 4 and 3), not exactly one Match of length 5: the
length-4 and length-3 suffix windows survive because their second copies
cannot extend past the end of the file. -/
theorem C2_counterexample :
    scenarioBMatches.map (fun m => (m.pattern.length, m.locations.map (·.lineStart))) =
      [(5, [1, 7]), (4, [2, 8]), (3, [3, 9])] ∧
    scenarioBMatches.map (·.pattern.length) ≠ [5] :=
  ⟨by decide, by decide⟩

/-- C2 (amended): on the scenario-B file the pipeline emits exactly three
Matches: length 5 at line starts 1 and 7, length 4 at 2 and 8, and length
3 at 3 and 9, ordered by descending score 10, 8, 4, all with similarity 1. -/
theorem C2_scenarioB :
    scenarioBMatches.map (fun m =>
        (m.pattern.length, m.score, m.similarity,
         m.locations.map (fun l => (l.filename, l.lineStart)))) =
      [(5, 10, 1, [("b.go", 1), ("b.go", 7)]),
       (4, 8, 1, [("b.go", 2), ("b.go", 8)]),
       (3, 4, 1, [("b.go", 3), ("b.go", 9)])] := by decide

/-! ## Claim C3: scenario C (overlap pruning) -/

/-- C3 counterexample: on six identical statements the pipeline emits no
Match at all, rather than one Match at line starts 1 and 4: the windows at
starts 1-3 all grow, and each frozen generation keeps fewer than
`min_occur` occurrences after pruning. -/
theorem C3_counterexample :
    scenarioCMatches = [] ∧ scenarioCMatches.length ≠ 1 :=
  ⟨by decide, by decide⟩

/-- C3 (amended): the scenario-C run emits nothing, and the emptiness
already holds at the detector stage. -/
theorem C3_scenarioC :
    scenarioCMatches = [] ∧
    detectPatterns niHash (·.lineNumber)
      (niParseFiles ".go" "//" [("c.go", scenarioCContent)]) 2 3 false = [] := by
  constructor <;> decide

end QuickDup

namespace QuickDup

/-! ## Claim C9: clustering partitions its input -/

/-- Moving an element out of a list slot: consing the old value of slot `k`
onto the list with slot `k` overwritten is a permutation of consing the
new value onto the original list. -/
theorem swap_cons_perm {α : Type} (xs : List α) :
    ∀ (k : Nat) (b x : α), xs[k]? = some b → (b :: xs.set k x).Perm (x :: xs) := by
  induction xs with
  | nil => intro k b x h; simp at h
  | cons y t ih =>
    intro k b x h
    cases k with
    | zero =>
      obtain rfl : y = b := by simpa using h
      exact List.Perm.swap x y t
    | succ k =>
      have ht : t[k]? = some b := by simpa using h
      have h1 : (b :: (y :: t).set (k + 1) x) = b :: y :: t.set k x := by simp
      rw [h1]
      exact ((List.Perm.swap y b _).trans ((ih k b x ht).cons y)).trans
        (List.Perm.swap x y t)

/-- Swapping two occupied slots of a list is a permutation. -/
theorem set_set_perm {α : Type} (l : List α) :
    ∀ (i j : Nat) (a b : α), l[i]? = some a → l[j]? = some b →
      ((l.set i b).set j a).Perm l := by
  induction l with
  | nil => intro i j a b hi _; simp at hi
  | cons x xs ih =>
    intro i j a b hi hj
    cases i with
    | zero =>
      obtain rfl : x = a := by simpa using hi
      cases j with
      | zero => simpa using List.Perm.refl (b :: xs)
      | succ j =>
        have hj2 : xs[j]? = some b := by simpa using hj
        simpa using swap_cons_perm xs j b x hj2
    | succ i =>
      have hi2 : xs[i]? = some a := by simpa using hi
      cases j with
      | zero =>
        obtain rfl : x = b := by simpa using hj
        simpa using swap_cons_perm xs i a x hi2
      | succ j =>
        have hj2 : xs[j]? = some b := by simpa using hj
        simpa using (ih i j a b hi2 hj2).cons x

/-- One conditional swap of the cluster sort is a permutation. -/
theorem maybeSwap_perm {α : Type} (key : α → Nat) (l : List α) (i j : Nat) :
    (maybeSwap key l i j).Perm l := by
  unfold maybeSwap
  cases hi : l[i]? with
  | none => exact List.Perm.refl l
  | some a =>
    cases hj : l[j]? with
    | none => exact List.Perm.refl l
    | some b =>
      dsimp only
      split
      · exact set_set_perm l i j a b hi hj
      · exact List.Perm.refl l

/-- The inner sort loop permutes its list. -/
theorem innerSortLoop_perm {α : Type} (key : α → Nat) (i : Nat) :
    ∀ (fuel j : Nat) (l : List α), (innerSortLoop key i fuel j l).Perm l := by
  intro fuel
  induction fuel with
  | zero => intro j l; exact List.Perm.refl l
  | succ fuel ih =>
    intro j l
    unfold innerSortLoop
    split
    · exact (ih (j + 1) (maybeSwap key l i j)).trans (maybeSwap_perm key l i j)
    · exact List.Perm.refl l

/-- The outer sort loop permutes its list. -/
theorem outerSortLoop_perm {α : Type} (key : α → Nat) :
    ∀ (fuel i : Nat) (l : List α), (outerSortLoop key fuel i l).Perm l := by
  intro fuel
  induction fuel with
  | zero => intro i l; exact List.Perm.refl l
  | succ fuel ih =>
    intro i l
    unfold outerSortLoop
    split
    · exact (ih (i + 1) _).trans (innerSortLoop_perm key i l.length (i + 1) l)
    · exact List.Perm.refl l

/-- The size-descending cluster sort permutes the clusters. -/
theorem sortClustersBySize_perm {E : Type} (l : List (ClusterResult E)) :
    (sortClustersBySize l).Perm l :=
  outerSortLoop_perm _ l.length 0 l

/-- Appending a value to its key's group adds exactly that value to the
multiset of grouped elements. -/
theorem insertAppend_flat {β : Type} (m : List (Nat × List β)) (k : Nat) (v : β) :
    ((insertAppend m k v).flatMap (fun g => g.2)).Perm
      (m.flatMap (fun g => g.2) ++ [v]) := by
  induction m with
  | nil => simp [insertAppend]
  | cons g rest ih =>
    unfold insertAppend
    by_cases hk : g.1 = k
    · rw [if_pos hk]
      simp only [List.flatMap_cons, List.append_assoc]
      exact (List.perm_append_comm.append_left g.2).symm
    · rw [if_neg hk]
      simp only [List.flatMap_cons, List.append_assoc]
      exact ih.append_left g.2

/-- Grouping a list of elements by key partitions it: the concatenation of
all groups is a permutation of the starting groups plus the elements. -/
theorem groupFold_flat {β : Type} (key : β → Nat) :
    ∀ (xs : List β) (m0 : List (Nat × List β)),
      ((xs.foldl (fun m i => insertAppend m (key i) i) m0).flatMap (fun g => g.2)).Perm
        (m0.flatMap (fun g => g.2) ++ xs) := by
  intro xs
  induction xs with
  | nil => intro m0; simp
  | cons x xs ih =>
    intro m0
    rw [List.foldl_cons]
    refine (ih (insertAppend m0 (key x) x)).trans ?_
    have h2 := (insertAppend_flat m0 (key x) x).append_right xs
    have h3 : (m0.flatMap (fun g => g.2) ++ [x]) ++ xs
        = m0.flatMap (fun g => g.2) ++ (x :: xs) := by simp
    rw [h3] at h2
    exact h2

/-- Reading every position of a list back through `getElem?` recovers the
list. -/
theorem range_filterMap_get {β : Type} (l : List β) :
    (List.range l.length).filterMap (fun i => l[i]?) = l := by
  induction l with
  | nil => simp
  | cons x t ih =>
    rw [List.length_cons, List.range_succ_eq_map, List.filterMap_cons,
      List.filterMap_map]
    simp only [List.getElem?_cons_zero, List.getElem?_cons_succ, Function.comp_def]
    rw [ih]

/-- Flattening per-group lookups equals looking up the flattened groups. -/
theorem flatMap_filterMap_exchange {β γ : Type} (f : Nat → Option γ) :
    ∀ (L : List (β × List Nat)),
      (L.flatMap (fun g => g.2.filterMap f)) = (L.flatMap (fun g => g.2)).filterMap f := by
  intro L
  induction L with
  | nil => rfl
  | cons g rest ih => simp [List.flatMap_cons, List.filterMap_append, ih]

/-- C9: `clusterBySimilarity` partitions its input: the concatenation of
the returned clusters' locations is a permutation of the input list (every
input location lands in exactly one cluster), and an input of fewer than
two locations yields exactly one cluster with similarity 1. -/
theorem C9_cluster_partition :
    ∀ {E : Type} (raw : E → String) (locations : List (PatternLocation E)) (threshold : ℚ),
      ((clusterBySimilarity raw locations threshold).flatMap (fun c => c.locations)).Perm
        locations ∧
      (locations.length < 2 →
        clusterBySimilarity raw locations threshold = [⟨locations, 1⟩]) := by
  intro E raw locations threshold
  unfold clusterBySimilarity
  by_cases hn : locations.length < 2
  · rw [if_pos hn]
    exact ⟨by simp, fun _ => rfl⟩
  · rw [if_neg hn]
    refine ⟨?_, fun h => absurd h hn⟩
    dsimp only
    have hsort : ∀ (rs : List (ClusterResult E)),
        ((sortClustersBySize rs).flatMap (fun c => c.locations)).Perm
          (rs.flatMap (fun c => c.locations)) := by
      intro rs
      rw [List.flatMap_def, List.flatMap_def]
      exact ((sortClustersBySize_perm rs).map _).flatten
    refine (hsort _).trans ?_
    rw [List.flatMap_map]
    dsimp only
    rw [flatMap_filterMap_exchange]
    refine ((groupFold_flat _ (List.range locations.length) []).filterMap _).trans ?_
    rw [show (([] : List (Nat × List Nat)).flatMap (fun g => g.2) ++
        List.range locations.length) = List.range locations.length by simp,
      range_filterMap_get]

end QuickDup

namespace QuickDup

/-! ## Claim C6: overlap-freedom of detector output -/

/-- The sweep only keeps input locations. -/
theorem sweep_subset {E : Type} (L : Nat) (ls : List (PatternLocation E)) :
    ∀ (e : Int) (y : PatternLocation E), y ∈ sweep L e ls → y ∈ ls := by
  induction ls with
  | nil => intro e y h; simp [sweep] at h
  | cons loc rest ih =>
    intro e y h
    unfold sweep at h
    split at h
    · rcases List.mem_cons.mp h with rfl | h2
      · exact List.mem_cons_self _ _
      · exact List.mem_cons_of_mem _ (ih _ _ h2)
    · exact List.mem_cons_of_mem _ (ih _ _ h)

/-- Every location kept by the sweep starts at or after the cursor. -/
theorem sweep_lb {E : Type} (L : Nat) (ls : List (PatternLocation E)) :
    ∀ (e : Int) (y : PatternLocation E), y ∈ sweep L e ls → e ≤ (y.entryIndex : Int) := by
  induction ls with
  | nil => intro e y h; simp [sweep] at h
  | cons loc rest ih =>
    intro e y h
    unfold sweep at h
    split at h
    next hcond =>
      rcases List.mem_cons.mp h with rfl | h2
      · exact hcond
      · have h3 := ih _ _ h2
        omega
    next => exact ih _ _ h

/-- The sweep's output is pairwise separated by the pattern length. -/
theorem sweep_pairwise {E : Type} (L : Nat) (ls : List (PatternLocation E)) :
    ∀ (e : Int),
      List.Pairwise (fun a c => a.entryIndex + L ≤ c.entryIndex) (sweep L e ls) := by
  induction ls with
  | nil => intro e; simp [sweep]
  | cons loc rest ih =>
    intro e
    unfold sweep
    split
    · refine List.Pairwise.cons ?_ (ih _)
      intro y hy
      have h2 := sweep_lb L rest _ y hy
      omega
    · exact ih _

/-- Everything in a file block belongs to that file and to the input. -/
theorem fileBlock_mem {E : Type} (locs : List (PatternLocation E)) (L : Nat)
    (f : String) (y : PatternLocation E) (hy : y ∈ fileBlock locs L f) :
    y.filename = f ∧ y ∈ locs := by
  unfold fileBlock at hy
  have hy2 : y ∈ locs.filter (fun loc => loc.filename = f) := by
    split at hy
    · exact hy
    · exact (List.perm_insertionSort _ _).mem_iff.mp (sweep_subset L _ _ y hy)
  have := List.mem_filter.mp hy2
  exact ⟨by simpa using this.2, this.1⟩

/-- Every file block is pairwise separated by the pattern length. -/
theorem fileBlock_pairwise {E : Type} (locs : List (PatternLocation E)) (L : Nat)
    (f : String) :
    List.Pairwise (fun a c => a.entryIndex + L ≤ c.entryIndex) (fileBlock locs L f) := by
  unfold fileBlock
  split
  next h1 =>
    obtain ⟨x, hx⟩ := List.length_eq_one.mp h1
    rw [hx]
    exact List.pairwise_singleton _ x
  next => exact sweep_pairwise L _ _

/-- `filterOverlappingOccurrences` returns a subset of its input. -/
theorem fo_subset {E : Type} (locs : List (PatternLocation E)) (L : Nat) :
    ∀ y ∈ filterOverlappingOccurrences locs L, y ∈ locs := by
  intro y hy
  unfold filterOverlappingOccurrences at hy
  split at hy
  · exact hy
  · obtain ⟨f, _, hyf⟩ := List.mem_flatMap.mp hy
    exact (fileBlock_mem locs L f y hyf).2

/-- The output of `filterOverlappingOccurrences` is pairwise separated on
same-file pairs. -/
theorem fo_pairwise {E : Type} (locs : List (PatternLocation E)) (L : Nat) :
    List.Pairwise (fun a c => a.filename = c.filename → a.entryIndex + L ≤ c.entryIndex)
      (filterOverlappingOccurrences locs L) := by
  unfold filterOverlappingOccurrences
  split
  next hlen =>
    match locs, hlen with
    | [], _ => exact List.Pairwise.nil
    | [x], _ => exact List.pairwise_singleton _ x
  next =>
    rw [List.flatMap_def, List.pairwise_flatten]
    refine ⟨?_, ?_⟩
    · intro l hl
      obtain ⟨f, _, rfl⟩ := List.mem_map.mp hl
      exact (fileBlock_pairwise locs L f).imp
        (fun {a c : PatternLocation E} (h : a.entryIndex + L ≤ c.entryIndex) => fun _ => h)
    · rw [List.pairwise_map]
      have hnodup : ((locs.map (·.filename)).dedup).Pairwise (· ≠ ·) :=
        List.nodup_dedup _
      refine hnodup.imp_of_mem ?_
      intro f1 f2 _ _ hne x hx y hy hxy
      exact absurd ((fileBlock_mem locs L f1 x hx).1 ▸
        ((fileBlock_mem locs L f2 y hy).1 ▸ hxy)) hne

/-- A same-file-separated bucket restricted to one file is sorted and
pairwise separated. -/
theorem pairwise_per_file {E : Type} (L : Nat) (locs : List (PatternLocation E))
    (h : List.Pairwise
      (fun a c => a.filename = c.filename → a.entryIndex + L ≤ c.entryIndex) locs)
    (f : String) :
    List.Pairwise (fun a c => a.entryIndex + L ≤ c.entryIndex)
      (sortByEntryIndex (locs.filter (fun loc => loc.filename = f))) := by
  have h1 := h.filter (fun loc => decide (loc.filename = f))
  have h2 : List.Pairwise (fun a c => a.entryIndex + L ≤ c.entryIndex)
      (locs.filter (fun loc => loc.filename = f)) := by
    refine h1.imp_of_mem ?_
    intro a c ha hc himp
    have hfa : a.filename = f := by simpa using (List.mem_filter.mp ha).2
    have hfc : c.filename = f := by simpa using (List.mem_filter.mp hc).2
    exact himp (hfa.trans hfc.symm)
  have h3 : List.Sorted (fun a c : PatternLocation E => a.entryIndex ≤ c.entryIndex)
      (locs.filter (fun loc => loc.filename = f)) :=
    h2.imp (fun hsep => by omega)
  unfold sortByEntryIndex
  rw [List.Sorted.insertionSort_eq h3]
  exact h2

/-- Invariant propagation through a left fold, with membership of the fold
inputs available. -/
theorem foldl_inv {σ ι : Type} (P : σ → Prop) (step : σ → ι → σ) :
    ∀ (l : List ι) (s0 : σ), P s0 → (∀ s i, i ∈ l → P s → P (step s i)) →
      P (l.foldl step s0) := by
  intro l
  induction l with
  | nil => intro s0 h0 _; exact h0
  | cons i l ih =>
    intro s0 h0 hstep
    exact ih _ (hstep s0 i (List.mem_cons_self i l) h0)
      (fun s j hj hP => hstep s j (List.mem_cons_of_mem i hj) hP)

/-- `foldl_inv` specialised to maps from hashes to location lists. -/
theorem foldl_buckets_inv {β ι : Type} (P : β → Prop) (step : List (Nat × List β) → ι → List (Nat × List β))
    (l : List ι) (s0 : List (Nat × List β))
    (h0 : ∀ b ∈ s0, ∀ x ∈ b.2, P x)
    (hstep : ∀ s i, i ∈ l → (∀ b ∈ s, ∀ x ∈ b.2, P x) → ∀ b ∈ step s i, ∀ x ∈ b.2, P x) :
    ∀ b ∈ l.foldl step s0, ∀ x ∈ b.2, P x :=
  foldl_inv (fun m => ∀ b ∈ m, ∀ x ∈ b.2, P x) step l s0 h0 hstep

/-- `foldl_inv` specialised to maps whose values satisfy a predicate. -/
theorem foldl_values_inv {β ι : Type} (P : β → Prop) (step : List (Nat × β) → ι → List (Nat × β))
    (l : List ι) (s0 : List (Nat × β))
    (h0 : ∀ b ∈ s0, P b.2)
    (hstep : ∀ s i, i ∈ l → (∀ b ∈ s, P b.2) → ∀ b ∈ step s i, P b.2) :
    ∀ b ∈ l.foldl step s0, P b.2 :=
  foldl_inv (fun m => ∀ b ∈ m, P b.2) step l s0 h0 hstep

/-- Values of an `insertAppend` map all satisfy `P` if the old values and
the inserted value do. -/
theorem insertAppend_values {β : Type} (P : β → Prop) :
    ∀ (m : List (Nat × List β)) (k : Nat) (v : β),
      (∀ b ∈ m, ∀ x ∈ b.2, P x) → P v →
      ∀ b ∈ insertAppend m k v, ∀ x ∈ b.2, P x := by
  intro m
  induction m with
  | nil =>
    intro k v _ hv b hb x hx
    simp only [insertAppend, List.mem_singleton] at hb
    subst hb
    simp only [List.mem_singleton] at hx
    subst hx
    exact hv
  | cons g rest ih =>
    intro k v hm hv b hb x hx
    unfold insertAppend at hb
    split at hb
    · rcases List.mem_cons.mp hb with hbe | hb2
      · subst hbe
        rcases List.mem_append.mp hx with hx1 | hx2
        · exact hm g (List.mem_cons_self _ _) x hx1
        · simp only [List.mem_singleton] at hx2
          subst hx2
          exact hv
      · exact hm b (List.mem_cons_of_mem _ hb2) x hx
    · rcases List.mem_cons.mp hb with hbe | hb2
      · subst hbe
        exact hm g (List.mem_cons_self _ _) x hx
      · exact ih k v (fun c hc => hm c (List.mem_cons_of_mem _ hc)) hv b hb2 x hx

/-- Values of an `insertReplace` map all satisfy `P` if the old values and
the new value do. -/
theorem insertReplace_values {β : Type} (P : β → Prop) :
    ∀ (m : List (Nat × β)) (k : Nat) (v : β),
      (∀ b ∈ m, P b.2) → P v → ∀ b ∈ insertReplace m k v, P b.2 := by
  intro m
  induction m with
  | nil =>
    intro k v _ hv b hb
    simp only [insertReplace, List.mem_singleton] at hb
    subst hb
    exact hv
  | cons g rest ih =>
    intro k v hm hv b hb
    unfold insertReplace at hb
    split at hb
    · rcases List.mem_cons.mp hb with hbe | hb2
      · subst hbe
        exact hv
      · exact hm b (List.mem_cons_of_mem _ hb2)
    · rcases List.mem_cons.mp hb with hbe | hb2
      · subst hbe
        exact hm g (List.mem_cons_self _ _)
      · exact ih k v (fun c hc => hm c (List.mem_cons_of_mem _ hc)) hv b hb2

end QuickDup

namespace QuickDup

/-- All base windows have length `min_size`. -/
theorem base_len {E : Type} (hashFn : List E → Nat) (lineNo : E → Nat)
    (fd : List (String × List E)) (minSize : Nat) :
    ∀ b ∈ generateBasePatterns hashFn lineNo fd minSize,
      ∀ loc ∈ b.2, loc.pattern.length = minSize := by
  unfold generateBasePatterns
  apply foldl_buckets_inv (fun loc : PatternLocation E => loc.pattern.length = minSize)
  · intro b hb
    simp at hb
  · intro m fdp _ hP
    apply foldl_buckets_inv (fun loc : PatternLocation E => loc.pattern.length = minSize)
    · exact hP
    · intro m2 hw hhw hP2
      refine insertAppend_values _ m2 hw.1 hw.2 hP2 ?_
      unfold windowsOfFile at hhw
      obtain ⟨i, hi, rfl⟩ := List.mem_map.mp hhw
      have hi2 := List.mem_range.mp hi
      dsimp only
      rw [List.length_take, List.length_drop]
      omega

/-- All extended windows have the new length. -/
theorem extend_len {E : Type} (hashFn : List E → Nat)
    (gen : List (Nat × List (PatternLocation E)))
    (fd : List (String × List E)) (newLen : Nat) :
    ∀ b ∈ extendPatterns hashFn gen fd newLen,
      ∀ loc ∈ b.2, loc.pattern.length = newLen := by
  unfold extendPatterns
  apply foldl_buckets_inv (fun loc : PatternLocation E => loc.pattern.length = newLen)
  · intro b hb
    simp at hb
  · intro m loc _ hP
    dsimp only
    split
    next hguard =>
      refine insertAppend_values _ m _ _ hP ?_
      dsimp only
      rw [List.length_take, List.length_drop]
      omega
    next => exact hP

/-- Every bucket frozen by the grow loop (with overlap pruning on) is
length-uniform and overlap-free per file. -/
theorem detectLoop_inv {E : Type} (hashFn : List E → Nat)
    (fd : List (String × List E)) (minOccur : Nat) :
    ∀ (fuel : Nat) (gen : List (Nat × List (PatternLocation E))) (curLen : Nat)
      (acc : List (Nat × List (PatternLocation E))),
      (∀ b ∈ gen, ∀ loc ∈ b.2, loc.pattern.length = curLen) →
      (∀ b ∈ acc, SeparatedLocs b.2) →
      ∀ b ∈ detectLoop hashFn fd minOccur false fuel gen curLen acc,
        SeparatedLocs b.2 := by
  intro fuel
  induction fuel with
  | zero =>
    intro gen curLen acc _ hacc
    exact hacc
  | succ fuel ih =>
    intro gen curLen acc hgen hacc
    unfold detectLoop
    split
    · exact hacc
    · dsimp only
      apply ih
      · intro b hb loc hloc
        have hb2 := List.mem_filter.mp hb
        exact extend_len hashFn gen fd (curLen + 1) b hb2.1 loc hloc
      · apply foldl_values_inv SeparatedLocs _ gen acc hacc
        intro s bb hbb hPs
        dsimp only
        simp only [Bool.false_eq_true, if_false]
        split
        next =>
          apply insertReplace_values _ s bb.1 _ hPs
          refine ⟨curLen, ?_, ?_⟩
          · intro loc hloc
            have h1 := fo_subset _ _ _ hloc
            have h2 := (List.mem_filter.mp h1).1
            exact hgen bb hbb loc h2
          · intro f
            exact pairwise_per_file curLen _ (fo_pairwise _ curLen) f
        next => exact hPs

/-- C6: with `keep_overlaps` false, every bucket in the detector's output
has one window length `L`, and within each file its locations, sorted by
start index, are pairwise non-overlapping (`start + L ≤ next start`);
overlap pruning through the `lastEnd` sweep established this before the
bucket was recorded. -/
theorem C6_detector_overlap_freedom :
    ∀ {E : Type} (hashFn : List E → Nat) (lineNo : E → Nat)
      (fileData : List (String × List E)) (minOccur minSize : Nat)
      (bucket : Nat × List (PatternLocation E)),
      bucket ∈ detectPatterns hashFn lineNo fileData minOccur minSize false →
      SeparatedLocs bucket.2 := by
  intro E hashFn lineNo fd minOccur minSize bucket hb
  unfold detectPatterns at hb
  refine detectLoop_inv hashFn fd minOccur _ _ minSize [] ?_ ?_ bucket hb
  · intro b hbb loc hloc
    exact base_len hashFn lineNo fd minSize b (List.mem_filter.mp hbb).1 loc hloc
  · intro b hbb
    simp at hbb

/-- C6 witness: the first bucket of the concrete two-duplicate run is
length-uniform and per-file separated. -/
theorem C6_detector_overlap_freedom_witness : SeparatedLocs c6Bucket0.2 :=
  C6_detector_overlap_freedom niHash (·.lineNumber) c6FileData 2 1 c6Bucket0 (by decide)

end QuickDup

namespace QuickDup

/-! ## Claim C10: idempotence of overlap pruning -/

/-- The sweep keeps an entire list that is already separated and starts at
or after the cursor. -/
theorem sweep_sep_id {E : Type} (L : Nat) :
    ∀ (ls : List (PatternLocation E)) (e : Int),
      (∀ y ∈ ls, e ≤ (y.entryIndex : Int)) →
      List.Pairwise (fun a c => a.entryIndex + L ≤ c.entryIndex) ls →
      sweep L e ls = ls := by
  intro ls
  induction ls with
  | nil => intro e _ _; rfl
  | cons loc rest ih =>
    intro e hlb hpw
    unfold sweep
    rw [if_pos (hlb loc (List.mem_cons_self _ _))]
    rw [ih _ ?_ (List.pairwise_cons.mp hpw).2]
    intro y hy
    have := (List.pairwise_cons.mp hpw).1 y hy
    omega

/-- A file block of a nonempty file group is nonempty. -/
theorem fileBlock_ne_nil {E : Type} (locs : List (PatternLocation E)) (L : Nat)
    (f : String) (hf : f ∈ (locs.map (·.filename)).dedup) :
    fileBlock locs L f ≠ [] := by
  have hne : locs.filter (fun loc => loc.filename = f) ≠ [] := by
    rw [List.mem_dedup, List.mem_map] at hf
    obtain ⟨loc, hloc, hfn⟩ := hf
    intro hnil
    have : loc ∈ locs.filter (fun loc => loc.filename = f) :=
      List.mem_filter.mpr ⟨hloc, by simpa using hfn⟩
    rw [hnil] at this
    exact absurd this (List.not_mem_nil loc)
  unfold fileBlock
  split
  · exact hne
  · have hsne : sortByEntryIndex (locs.filter (fun loc => loc.filename = f)) ≠ [] := by
      intro hnil
      have hp := List.perm_insertionSort
        (fun a b : PatternLocation E => a.entryIndex ≤ b.entryIndex)
        (locs.filter (fun loc => loc.filename = f))
      unfold sortByEntryIndex at hnil
      rw [hnil] at hp
      have h0 : (locs.filter (fun loc => loc.filename = f)).length = 0 := by
        simpa using hp.length_eq.symm
      exact hne (List.eq_nil_of_length_eq_zero h0)
    obtain ⟨loc, rest, hs⟩ := List.exists_cons_of_ne_nil hsne
    rw [hs]
    unfold sweep
    rw [if_pos (by omega : (-1 : Int) ≤ (loc.entryIndex : Int))]
    exact List.cons_ne_nil _ _

end QuickDup

namespace QuickDup

/-- Dedup of a nonempty constant run followed by a tail avoiding the run's
value keeps exactly one copy of the value in front. -/
theorem dedup_const_append (f : String) :
    ∀ (run rest : List String), run ≠ [] → (∀ x ∈ run, x = f) → f ∉ rest →
      (run ++ rest).dedup = f :: rest.dedup := by
  intro run
  induction run with
  | nil => intro rest h _ _; exact absurd rfl h
  | cons x run ih =>
    intro rest _ hall hnot
    obtain rfl : x = f := hall x (List.mem_cons_self _ _)
    by_cases hrun : run = []
    · subst hrun
      simpa using List.dedup_cons_of_not_mem hnot
    · have hmem : x ∈ run ++ rest := by
        obtain ⟨y, t, hy⟩ := List.exists_cons_of_ne_nil hrun
        have : y = x := hall y (by simp [hy])
        subst this
        simp [hy]
      rw [List.cons_append, List.dedup_cons_of_mem hmem]
      exact ih rest hrun (fun z hz => hall z (List.mem_cons_of_mem _ hz)) hnot

/-- Filenames of a flat-mapped family of nonempty file-pure blocks dedup
back to the file list itself. -/
theorem dedup_flat_blocks {α : Type} (yfn : α → String) (B : String → List α) :
    ∀ (fs : List String), fs.Nodup →
      (∀ f ∈ fs, B f ≠ [] ∧ ∀ y ∈ B f, yfn y = f) →
      ((fs.flatMap B).map yfn).dedup = fs := by
  intro fs
  induction fs with
  | nil => intro _ _; rfl
  | cons f fs ih =>
    intro hnd hB
    rw [List.flatMap_cons, List.map_append]
    have hfprops := hB f (List.mem_cons_self _ _)
    have hnotin : f ∉ (fs.flatMap B).map yfn := by
      intro hmem
      obtain ⟨y, hy, hyf⟩ := List.mem_map.mp hmem
      obtain ⟨f2, hf2, hyB⟩ := List.mem_flatMap.mp hy
      have : yfn y = f2 := (hB f2 (List.mem_cons_of_mem _ hf2)).2 y hyB
      rw [this] at hyf
      exact (List.nodup_cons.mp hnd).1 (hyf ▸ hf2)
    rw [dedup_const_append f ((B f).map yfn) _ ?_ ?_ hnotin]
    · rw [ih (List.nodup_cons.mp hnd).2 (fun g hg => hB g (List.mem_cons_of_mem _ hg))]
    · intro h
      exact hfprops.1 (List.map_eq_nil_iff.mp h)
    · intro x hx
      obtain ⟨y, hy, rfl⟩ := List.mem_map.mp hx
      exact hfprops.2 y hy

/-- Filtering a flat-mapped family of file-pure blocks by one of its files
recovers that file's block. -/
theorem flat_blocks_filter {α : Type} (yfn : α → String) (B : String → List α) :
    ∀ (fs : List String), fs.Nodup →
      (∀ f ∈ fs, ∀ y ∈ B f, yfn y = f) →
      ∀ f ∈ fs, (fs.flatMap B).filter (fun y => yfn y = f) = B f := by
  intro fs
  induction fs with
  | nil => intro _ _ f hf; exact absurd hf (List.not_mem_nil f)
  | cons g fs ih =>
    intro hnd hB f hf
    rw [List.flatMap_cons, List.filter_append]
    rcases List.mem_cons.mp hf with rfl | hf2
    · have h1 : (B f).filter (fun y => yfn y = f) = B f :=
        List.filter_eq_self.mpr (fun y hy => by
          simpa using hB f (List.mem_cons_self _ _) y hy)
      have h2 : (fs.flatMap B).filter (fun y => yfn y = f) = [] := by
        refine List.filter_eq_nil_iff.mpr ?_
        intro y hy
        obtain ⟨f2, hf2, hyB⟩ := List.mem_flatMap.mp hy
        have hy2 : yfn y = f2 := hB f2 (List.mem_cons_of_mem _ hf2) y hyB
        simp only [hy2, decide_eq_true_eq]
        intro hh
        exact (List.nodup_cons.mp hnd).1 (hh ▸ hf2)
      rw [h1, h2, List.append_nil]
    · have h1 : (B g).filter (fun y => yfn y = f) = [] := by
        refine List.filter_eq_nil_iff.mpr ?_
        intro y hy
        have hy2 : yfn y = g := hB g (List.mem_cons_self _ _) y hy
        simp only [hy2, decide_eq_true_eq]
        intro hh
        exact (List.nodup_cons.mp hnd).1 (hh ▸ hf2)
      rw [h1, List.nil_append]
      exact ih (List.nodup_cons.mp hnd).2
        (fun g2 hg2 => hB g2 (List.mem_cons_of_mem _ hg2)) f hf2

end QuickDup

namespace QuickDup

/-- A file block is sorted by entry index. -/
theorem fileBlock_sorted {E : Type} (locs : List (PatternLocation E)) (L : Nat)
    (f : String) :
    List.Sorted (fun a c : PatternLocation E => a.entryIndex ≤ c.entryIndex)
      (fileBlock locs L f) :=
  (fileBlock_pairwise locs L f).imp (fun h => by omega)

/-- `filterOverlappingOccurrences` is idempotent as a list transformation:
its output passes through a second application unchanged. -/
theorem fo_idem {E : Type} (locs : List (PatternLocation E)) (L : Nat) :
    filterOverlappingOccurrences (filterOverlappingOccurrences locs L) L
      = filterOverlappingOccurrences locs L := by
  by_cases h1 : locs.length ≤ 1
  · have hinner : filterOverlappingOccurrences locs L = locs := by
      unfold filterOverlappingOccurrences
      rw [if_pos h1]
    rw [hinner, hinner]
  · have hinner : filterOverlappingOccurrences locs L
        = ((locs.map (·.filename)).dedup).flatMap (fileBlock locs L) := by
      unfold filterOverlappingOccurrences
      rw [if_neg h1]
    set files := (locs.map (·.filename)).dedup with hfiles
    have hnd : files.Nodup := List.nodup_dedup _
    have hprops : ∀ f ∈ files,
        fileBlock locs L f ≠ [] ∧ ∀ y ∈ fileBlock locs L f, y.filename = f :=
      fun f hf => ⟨fileBlock_ne_nil locs L f hf,
        fun y hy => (fileBlock_mem locs L f y hy).1⟩
    have hdedup : ((files.flatMap (fileBlock locs L)).map (·.filename)).dedup = files :=
      dedup_flat_blocks (·.filename) (fileBlock locs L) files hnd hprops
    have hfilter : ∀ f ∈ files,
        (files.flatMap (fileBlock locs L)).filter (fun y => y.filename = f)
          = fileBlock locs L f :=
      flat_blocks_filter (·.filename) (fileBlock locs L) files hnd
        (fun f hf => (hprops f hf).2)
    have hblockEq : ∀ f ∈ files,
        fileBlock (files.flatMap (fileBlock locs L)) L f = fileBlock locs L f := by
      intro f hf
      have hfe := hfilter f hf
      have hsorted := fileBlock_sorted locs L f
      have hpw := fileBlock_pairwise locs L f
      generalize hgen : files.flatMap (fileBlock locs L) = out at hfe ⊢
      conv_lhs => unfold fileBlock
      rw [hfe]
      split
      next => rfl
      next =>
        unfold sortByEntryIndex
        rw [List.Sorted.insertionSort_eq hsorted]
        exact sweep_sep_id L _ _ (fun y hy => by omega) hpw
    rw [hinner]
    by_cases hout : (files.flatMap (fileBlock locs L)).length ≤ 1
    · unfold filterOverlappingOccurrences
      rw [if_pos hout]
    · unfold filterOverlappingOccurrences
      rw [if_neg hout, hdedup, List.flatMap_def, List.flatMap_def]
      exact congrArg List.flatten (List.map_congr_left hblockEq)

/-- C10: `filterOverlappingOccurrences` is idempotent as a set
transformation: applying it twice yields the same set of locations as
applying it once (in this model even the same list). -/
theorem C10_fo_idempotent :
    ∀ {E : Type} (locs : List (PatternLocation E)) (L : Nat),
      filterOverlappingOccurrences (filterOverlappingOccurrences locs L) L
        = filterOverlappingOccurrences locs L ∧
      ∀ x, (x ∈ filterOverlappingOccurrences (filterOverlappingOccurrences locs L) L ↔
        x ∈ filterOverlappingOccurrences locs L) :=
  fun locs L => ⟨fo_idem locs L, fun x => by rw [fo_idem locs L]⟩

/-- C10 witness: concrete double application on three locations with one
overlapping pair. -/
theorem C10_fo_idempotent_witness :
    filterOverlappingOccurrences (filterOverlappingOccurrences c10locs 3) 3
      = filterOverlappingOccurrences c10locs 3 :=
  (C10_fo_idempotent c10locs 3).1

end QuickDup

namespace QuickDup

/-- C9 witness: a singleton input is returned as one cluster with
similarity 1, and the clusters' locations are a permutation of the input. -/
theorem C9_cluster_partition_witness :
    ((clusterBySimilarity (fun e => e.sourceLine) [c9loc] (1/2)).flatMap
        (fun c => c.locations)).Perm [c9loc] ∧
    clusterBySimilarity (fun e => e.sourceLine) [c9loc] (1/2) = [⟨[c9loc], 1⟩] :=
  ⟨(C9_cluster_partition (fun e => e.sourceLine) [c9loc] (1/2)).1,
   (C9_cluster_partition (fun e => e.sourceLine) [c9loc] (1/2)).2 (by decide)⟩

end QuickDup
